import Mathlib

/-!
# NELF (No-Escape List Format) — verification of the codec

Shallow embedding of the `nelf` Rust crate (`src/lib.rs`): byte strings are
`List Nat` (each element a byte value), the decoder `NelfIter::next` becomes
`nelfNext` (explicit cursor passing), iterating it to exhaustion becomes
`nelfDecode`, the encoder `ToCell::to_cell` for `&[u8]` becomes `to_cell`,
and `ToNelf::to_nelf` becomes `to_nelf`.
-/

namespace Nelf

/-- Byte value of `|`. -/
def PIPE : Nat := 124

/-- Byte value of `/`. -/
def FWD : Nat := 47

/-- Byte value of `\`. -/
def BACK : Nat := 92

/-- `usize::MAX`, the sentinel used by `to_cell` for ineligible schemes. -/
def usizeMax : Nat := 2 ^ 64 - 1

/-- The predicate matched in `NelfIter::next`, step 1:
`matches!(ch, b'|' | b'/' | b'\\')`. -/
def isDelim (c : Nat) : Bool := c == PIPE || c == FWD || c == BACK

/-- `self.string[self.index..].iter().enumerate().find(|&(_, &ch)| isDelim ch)`:
index of and value at the first delimiter byte of the list, if any. -/
def findDelim : List Nat → Option (Nat × Nat)
  | [] => none
  | c :: rest =>
    if isDelim c then some (0, c)
    else (findDelim rest).map (fun x => (x.1 + 1, x.2))

/-- `self.string[self.index..].iter().enumerate().find(|&(_, &ch)| ch != lch)`:
index of the first byte differing from `lch`, i.e. the length of the leading
run of `lch`, or `none` if the run extends to the end. -/
def findRun (lch : Nat) : List Nat → Option Nat
  | [] => none
  | c :: rest =>
    if c != lch then some 0 else (findRun lch rest).map (· + 1)

/-- The `match lch` computing the closing byte `rch` in `NelfIter::next`
(the `unreachable!` arm for non-delimiter bytes is subsumed by the last
branch; `rch` is only applied to delimiter bytes). -/
def rch (c : Nat) : Nat :=
  if c == PIPE then PIPE else if c == FWD then BACK else FWD

/-- The `while self.index < self.string.len()` loop of `NelfIter::next`,
recast over the suffix of the buffer starting at the cursor: returns the
number of bytes consumed and the final `count` of consecutive `rc` bytes. -/
def closeLoop (rc len : Nat) : List Nat → Nat → Nat × Nat
  | [], count => (0, count)
  | c :: rest, count =>
    if count = len then (0, count)
    else
      let r := closeLoop rc len rest (if c == rc then count + 1 else 0)
      (r.1 + 1, r.2)

/-- One call of `NelfIter::next` on buffer `s` with cursor `i`: returns the
yielded cell content and the new cursor, or `none` at end of sequence. -/
def nelfNext (s : List Nat) (i : Nat) : Option (List Nat × Nat) :=
  match findDelim (s.drop i) with
  | none => none
  | some (d, lch) =>
    match findRun lch (s.drop (i + d)) with
    | none => none
    | some len =>
      match closeLoop (rch lch) len (s.drop (i + d + len)) 0 with
      | (consumed, count) =>
        if count = len then
          some ((s.drop (i + d + len)).take (consumed - len),
            i + d + len + consumed)
        else
          some (s.drop (i + d + len), i + d + len + consumed)

/-- `closeLoop` consumes at most the whole list. -/
theorem closeLoop_fst_le (rc len : Nat) :
    ∀ (l : List Nat) (count : Nat), (closeLoop rc len l count).1 ≤ l.length := by
  intro l
  induction l with
  | nil => intro count; simp [closeLoop]
  | cons c rest ih =>
    intro count
    by_cases h : count = len
    · simp [closeLoop, h]
    · simp only [closeLoop, if_neg h, List.length_cons]
      exact Nat.succ_le_succ (ih _)

/-- `findDelim` finds an actual delimiter position: the list from that
position on starts with the reported delimiter byte. -/
theorem findDelim_spec :
    ∀ {l : List Nat} {d ch : Nat}, findDelim l = some (d, ch) →
      isDelim ch = true ∧ l.drop d = ch :: l.drop (d + 1) := by
  intro l
  induction l with
  | nil => intro d ch h; simp [findDelim] at h
  | cons c rest ih =>
    intro d ch h
    rw [findDelim] at h
    by_cases hc : isDelim c
    · rw [if_pos hc] at h
      have h' := Option.some.inj h
      simp only [Prod.mk.injEq] at h'
      obtain ⟨hd, hch⟩ := h'
      subst hch
      rw [← hd]
      exact ⟨hc, by simp⟩
    · rw [if_neg hc] at h
      cases hrec : findDelim rest with
      | none => rw [hrec] at h; simp at h
      | some x =>
        rw [hrec] at h
        obtain ⟨x1, x2⟩ := x
        simp only [Option.map_some'] at h
        have h' := Option.some.inj h
        simp only [Prod.mk.injEq] at h'
        obtain ⟨hd, hch⟩ := h'
        subst hch
        obtain ⟨h1, h2⟩ := ih hrec
        rw [← hd]
        exact ⟨h1, by simpa using h2⟩

/-- `findRun` reports a position inside the list. -/
theorem findRun_lt_length :
    ∀ {lch : Nat} {l : List Nat} {n : Nat}, findRun lch l = some n →
      n < l.length := by
  intro lch l
  induction l with
  | nil => intro n h; simp [findRun] at h
  | cons c rest ih =>
    intro n h
    by_cases hc : c = lch
    · subst hc
      simp [findRun] at h
      obtain ⟨m, hm, hn⟩ := h
      subst hn
      exact Nat.succ_lt_succ (ih hm)
    · simp [findRun, hc] at h
      subst h
      simp

/-- On a list starting with `lch`, `findRun` returns a positive run length. -/
theorem findRun_pos {lch : Nat} {t : List Nat} {n : Nat}
    (h : findRun lch (lch :: t) = some n) : 1 ≤ n := by
  simp [findRun] at h
  obtain ⟨m, _, hn⟩ := h
  omega

/-- Progress and boundedness for one decoder step: when a cell is yielded, the
cursor strictly advances and stays within the buffer. -/
theorem nelfNext_progress {s : List Nat} {i : Nat} {c : List Nat} {j : Nat}
    (h : nelfNext s i = some (c, j)) : i < j ∧ j ≤ s.length := by
  cases hfd : findDelim (s.drop i) with
  | none => simp [nelfNext, hfd] at h
  | some dl =>
    obtain ⟨d, lch⟩ := dl
    simp only [nelfNext, hfd] at h
    obtain ⟨hdelim, hdrop⟩ := findDelim_spec hfd
    have hd_lt : d < (s.drop i).length := by
      by_contra hge
      rw [List.drop_eq_nil_of_le (by omega : (s.drop i).length ≤ d)] at hdrop
      exact absurd hdrop (by simp)
    have hp : s.drop (i + d) = lch :: s.drop (i + d + 1) := by
      rw [List.drop_drop, List.drop_drop] at hdrop
      rw [show i + d + 1 = i + (d + 1) by omega]
      exact hdrop
    cases hfr : findRun lch (s.drop (i + d)) with
    | none => simp [hfr] at h
    | some len =>
      simp only [hfr] at h
      have hlen1 : 1 ≤ len := findRun_pos (hp ▸ hfr)
      have hlen_lt : len < (s.drop (i + d)).length := findRun_lt_length hfr
      have hid_le : i + d + len < s.length := by
        rw [List.length_drop] at hlen_lt
        omega
      have hcl := closeLoop_fst_le (rch lch) len (s.drop (i + d + len)) 0
      rw [List.length_drop] at hcl
      by_cases hcount : (closeLoop (rch lch) len (s.drop (i + d + len)) 0).2 = len
      · rw [if_pos hcount] at h
        simp only [Option.some.injEq, Prod.mk.injEq] at h
        obtain ⟨-, hj⟩ := h
        omega
      · rw [if_neg hcount] at h
        simp only [Option.some.injEq, Prod.mk.injEq] at h
        obtain ⟨-, hj⟩ := h
        omega

/-- Iterating `NelfIter::next` to exhaustion, collecting the yielded cells:
the full decoded sequence from cursor `i`. -/
def nelfDecode (s : List Nat) (i : Nat) : List (List Nat) :=
  match h : nelfNext s i with
  | none => []
  | some x =>
    have : s.length - x.2 < s.length - i := by
      obtain ⟨h1, h2⟩ := nelfNext_progress (c := x.1) (j := x.2) (by simpa using h)
      omega
    x.1 :: nelfDecode s x.2
termination_by s.length - i

/-- The state stream of the Rust
`iter().scan(0, |state, &x| { if x == c { *state += 1 } else { *state = 0 }; Some(*state) })`
used three times in `to_cell`: for each position, the length of the run of
byte `c` ending there. -/
def runStates (c : Nat) (state : Nat) : List Nat → List Nat
  | [] => []
  | x :: rest =>
    let s := if x == c then state + 1 else 0
    s :: runStates c s rest

/-- The final scan state after a whole list: the length of the trailing run
of byte `c` (starting from `state`). Used in proofs about the scans. -/
def runCount (c : Nat) (state : Nat) : List Nat → Nat
  | [] => state
  | x :: rest => runCount c (if x == c then state + 1 else 0) rest

/-- `.scan(0, …).max().unwrap()` of `to_cell`: the maximum of the scan
states, i.e. the longest run of byte `c` in the list (0 on the empty list,
where the Rust `unwrap` is never reached since `to_cell` guards on
`is_empty`). -/
def scanMax (c : Nat) (l : List Nat) : Nat := (runStates c 0 l).foldr max 0

/-- The `pipe` eligibility flag of `to_cell`: cleared when the first or last
byte is `|`. -/
def pipeOk (s : List Nat) : Bool := !(s.headD 0 == PIPE || s.getLastD 0 == PIPE)

/-- The `forward` eligibility flag of `to_cell`: cleared when the first byte
is `/` or the last byte is `\`. -/
def forwardOk (s : List Nat) : Bool := !(s.headD 0 == FWD || s.getLastD 0 == BACK)

/-- The `back` eligibility flag of `to_cell`: cleared when the first byte is
`\` or the last byte is `/`. -/
def backOk (s : List Nat) : Bool := !(s.headD 0 == BACK || s.getLastD 0 == FWD)

/-- `pipe_max` in `to_cell`: required run length for the `(|,|)` scheme, or
the `usize::MAX` sentinel when ineligible. -/
def pipeMax (s : List Nat) : Nat := if pipeOk s then scanMax PIPE s + 1 else usizeMax

/-- `forward_max` in `to_cell`: required run length for the `(/,\)` scheme
(close byte `\`), or the sentinel. -/
def forwardMax (s : List Nat) : Nat :=
  if forwardOk s then scanMax BACK s + 1 else usizeMax

/-- `back_max` in `to_cell`: required run length for the `(\,/)` scheme
(close byte `/`), or the sentinel. -/
def backMax (s : List Nat) : Nat := if backOk s then scanMax FWD s + 1 else usizeMax

/-- `let min = pipe_max.min(forward_max).min(back_max)` in `to_cell`. -/
def cellN (s : List Nat) : Nat := min (min (pipeMax s) (forwardMax s)) (backMax s)

/-- `ToCell::to_cell` for `&[u8]`: encode one byte string as a NELF cell. -/
def to_cell (s : List Nat) : List Nat :=
  if s.isEmpty then [FWD, BACK]
  else if pipeMax s = cellN s then
    List.replicate (cellN s) PIPE ++ s ++ List.replicate (cellN s) PIPE
  else if forwardMax s = cellN s then
    List.replicate (cellN s) FWD ++ s ++ List.replicate (cellN s) BACK
  else
    List.replicate (cellN s) BACK ++ s ++ List.replicate (cellN s) FWD

/-- `ToNelf::to_nelf`: encode a list of byte strings by concatenating their
cells, in order, with no separators. -/
def to_nelf : List (List Nat) → List Nat
  | [] => []
  | s :: rest => to_cell s ++ to_nelf rest

/-! ## Lemmas about the scan state (`runCount` / `runStates`) -/

theorem runCount_append (c st : Nat) (u v : List Nat) :
    runCount c st (u ++ v) = runCount c (runCount c st u) v := by
  induction u generalizing st with
  | nil => simp [runCount]
  | cons x u' ih => simp [runCount, ih]

theorem runCount_concat (c st x : Nat) (u : List Nat) :
    runCount c st (u ++ [x]) = if x == c then runCount c st u + 1 else 0 := by
  rw [runCount_append]
  simp [runCount]

/-- A list not ending in byte `c` has trailing `c`-run length zero, whatever
the incoming state. -/
theorem runCount_zero_of_last {c st : Nat} {s : List Nat} (hs : s ≠ [])
    (h : s.getLastD 0 ≠ c) : runCount c st s = 0 := by
  induction s using List.reverseRecOn with
  | nil => exact absurd rfl hs
  | append_singleton u x _ =>
    rw [runCount_concat]
    have hx : x ≠ c := by simpa using h
    simp [hx]

theorem runStates_append (c st : Nat) (u v : List Nat) :
    runStates c st (u ++ v) =
      runStates c st u ++ runStates c (runCount c st u) v := by
  induction u generalizing st with
  | nil => simp [runStates, runCount]
  | cons x u' ih => simp [runStates, runCount, ih]

theorem runCount_mem_runStates (c : Nat) :
    ∀ {p : List Nat}, p ≠ [] → ∀ st, runCount c st p ∈ runStates c st p := by
  intro p
  induction p with
  | nil => intro h; exact absurd rfl h
  | cons x p' ih =>
    intro _ st
    cases hp : p' with
    | nil => simp [runCount, runStates]
    | cons y q =>
      rw [← hp]
      have := ih (by simp [hp]) (if x == c then st + 1 else 0)
      simp only [runCount, runStates]
      exact List.mem_cons_of_mem _ this

theorem le_foldr_max {x : Nat} : ∀ {L : List Nat}, x ∈ L → x ≤ L.foldr max 0 := by
  intro L
  induction L with
  | nil => intro h; simp at h
  | cons y L' ih =>
    intro h
    rcases List.mem_cons.mp h with h | h
    · subst h; exact Nat.le_max_left _ _
    · exact Nat.le_trans (ih h) (Nat.le_max_right _ _)

theorem foldr_max_mem : ∀ (L : List Nat), L.foldr max 0 ∈ L ∨ L.foldr max 0 = 0 := by
  intro L
  induction L with
  | nil => simp
  | cons y L' ih =>
    rcases Nat.le_total (L'.foldr max 0) y with h | h
    · left
      simp [Nat.max_eq_left h]
    · rcases ih with hm | hz
      · left
        rw [List.foldr_cons, Nat.max_eq_right h]
        exact List.mem_cons_of_mem _ hm
      · left
        have hy0 : y = 0 := by omega
        subst hy0
        simp [hz]

/-- The scan state at any prefix is bounded by the maximum scan state of the
whole list. -/
theorem runCount_prefix_le_scanMax (c : Nat) (p q : List Nat) :
    runCount c 0 p ≤ scanMax c (p ++ q) := by
  cases hp : p with
  | nil => simp [runCount, Nat.zero_le]
  | cons x p' =>
    rw [← hp]
    have hmem : runCount c 0 p ∈ runStates c 0 p :=
      runCount_mem_runStates c (by simp [hp]) 0
    have : runCount c 0 p ∈ runStates c 0 (p ++ q) := by
      rw [runStates_append]
      exact List.mem_append_left _ hmem
    exact le_foldr_max this

/-- Every scan state counts an actual trailing run: the prefix it closes
ends with that many copies of `c`. -/
theorem exists_run_of_runCount (c : Nat) :
    ∀ (p : List Nat), ∃ p₁, p = p₁ ++ List.replicate (runCount c 0 p) c := by
  intro p
  induction p using List.reverseRecOn with
  | nil => exact ⟨[], by simp [runCount]⟩
  | append_singleton u x ih =>
    rw [runCount_concat]
    by_cases hx : x = c
    · obtain ⟨p₁, hp₁⟩ := ih
      refine ⟨p₁, ?_⟩
      rw [hx, if_pos (by simp)]
      rw [List.replicate_succ' (runCount c 0 u) c, ← List.append_assoc, ← hp₁]
    · exact ⟨u ++ [x], by simp [hx]⟩

/-- Every scan state belongs to some nonempty prefix. -/
theorem runStates_mem_spec (c : Nat) :
    ∀ {l : List Nat} {st x : Nat}, x ∈ runStates c st l →
      ∃ p q, l = p ++ q ∧ p ≠ [] ∧ x = runCount c st p := by
  intro l
  induction l with
  | nil => intro st x h; simp [runStates] at h
  | cons y l' ih =>
    intro st x h
    simp only [runStates] at h
    rcases List.mem_cons.mp h with h | h
    · exact ⟨[y], l', rfl, by simp, by simp [runCount, h]⟩
    · obtain ⟨p, q, hl, hp, hx⟩ := ih h
      exact ⟨y :: p, q, by simp [hl], by simp, by simp [runCount, hx]⟩

/-- The maximal scan state is attained by a run actually present in the
list: `l` contains `scanMax c l` consecutive copies of `c`. -/
theorem scanMax_attained (c : Nat) (l : List Nat) :
    ∃ p₁ q, l = p₁ ++ List.replicate (scanMax c l) c ++ q := by
  rcases foldr_max_mem (runStates c 0 l) with hm | hz
  · obtain ⟨p, q, hl, _, hx⟩ := runStates_mem_spec c hm
    obtain ⟨p₁, hp₁⟩ := exists_run_of_runCount c p
    refine ⟨p₁, q, ?_⟩
    subst hl
    rw [scanMax, hx]
    nth_rewrite 1 [hp₁]
    rfl
  · exact ⟨[], l, by simp [scanMax, hz]⟩

/-- Conversely, every run of `c` present in `l` is bounded by `scanMax`. -/
theorem run_le_scanMax (c : Nat) (p : List Nat) (k : Nat) (q : List Nat) :
    k ≤ scanMax c (p ++ List.replicate k c ++ q) := by
  have h1 : runCount c 0 (p ++ List.replicate k c) ≥ k := by
    rw [runCount_append]
    have : ∀ (m st : Nat), runCount c st (List.replicate m c) = st + m := by
      intro m
      induction m with
      | zero => intro st; simp [runCount]
      | succ m ih =>
        intro st
        simp [List.replicate_succ, runCount, ih]
        omega
    rw [this]
    omega
  have h2 := runCount_prefix_le_scanMax c (p ++ List.replicate k c) q
  rw [List.append_assoc] at h2
  rw [← List.append_assoc] at h2
  omega

/-- Scan states are bounded by the incoming state plus the list length. -/
theorem runStates_le (c : Nat) :
    ∀ {l : List Nat} {st x : Nat}, x ∈ runStates c st l → x ≤ st + l.length := by
  intro l
  induction l with
  | nil => intro st x h; simp [runStates] at h
  | cons y l' ih =>
    intro st x h
    simp only [runStates] at h
    rcases List.mem_cons.mp h with h | h
    · subst h
      by_cases hy : (y == c) = true
      · rw [if_pos hy]
        simp only [List.length_cons]
        omega
      · rw [if_neg hy]
        simp only [List.length_cons]
        omega
    · have hx := ih h
      by_cases hy : (y == c) = true
      · rw [if_pos hy] at hx
        simp only [List.length_cons]
        omega
      · rw [if_neg hy] at hx
        simp only [List.length_cons]
        omega

theorem scanMax_le_length (c : Nat) (l : List Nat) : scanMax c l ≤ l.length := by
  rcases foldr_max_mem (runStates c 0 l) with hm | hz
  · simpa using runStates_le c hm
  · rw [scanMax, hz]; exact Nat.zero_le _

/-! ## Lemmas about the decoder's closing-run scan (`closeLoop`) -/

/-- The scan passes cleanly through a segment `u` on which the running count
never reaches the target `n`: it consumes all of `u` and continues on `v`
from the scan state left by `u`. -/
theorem closeLoop_through (rc n : Nat) (v : List Nat) :
    ∀ (u : List Nat) (c : Nat),
      (∀ p q, u = p ++ q → runCount rc c p < n) →
      closeLoop rc n (u ++ v) c =
        ((closeLoop rc n v (runCount rc c u)).1 + u.length,
          (closeLoop rc n v (runCount rc c u)).2) := by
  intro u
  induction u with
  | nil =>
    intro c _
    simp [runCount]
  | cons x u' ih =>
    intro c h
    have hc : c < n := by
      have := h [] (x :: u') rfl
      simpa [runCount] using this
    simp only [List.cons_append, closeLoop, List.append_eq]
    rw [if_neg (show ¬ c = n by omega)]
    have hrec := ih (if x == rc then c + 1 else 0) (fun p q hpq => by
      have := h (x :: p) q (by rw [hpq]; rfl)
      simpa [runCount] using this)
    rw [hrec]
    simp only [runCount, List.length_cons, Prod.mk.injEq]
    exact ⟨by omega, trivial⟩

/-- The scan entered with state `c` against a run of `n - c` closing bytes
stops exactly at the end of the run with final count `n`. -/
theorem closeLoop_replicate (rc n : Nat) (v : List Nat) :
    ∀ (k c : Nat), c + k = n →
      closeLoop rc n (List.replicate k rc ++ v) c = (k, n) := by
  intro k
  induction k with
  | zero =>
    intro c hc
    have hcn : c = n := by omega
    subst hcn
    cases v with
    | nil => simp [closeLoop]
    | cons y v' => simp [closeLoop]
  | succ k ih =>
    intro c hc
    simp only [List.replicate_succ, List.cons_append, closeLoop, List.append_eq]
    rw [if_neg (show ¬ c = n by omega)]
    rw [show (if rc == rc then c + 1 else 0) = c + 1 by simp]
    rw [ih (c + 1) (by omega)]

/-! ## Lemmas about the decoder's delimiter searches -/

/-- Skipping non-delimiter filler shifts the found position. -/
theorem findDelim_fill {fill : List Nat} (hf : ∀ x ∈ fill, isDelim x = false) :
    ∀ {t : List Nat} {d ch : Nat}, findDelim t = some (d, ch) →
      findDelim (fill ++ t) = some (fill.length + d, ch) := by
  induction fill with
  | nil => intro t d ch h; simpa using h
  | cons b fl ih =>
    intro t d ch h
    have hb : isDelim b = false := hf b (by simp)
    have ih' := ih (fun x hx => hf x (by simp [hx])) h
    simp only [List.cons_append, findDelim, hb, Bool.false_eq_true, if_false,
      List.append_eq, ih', Option.map_some', List.length_cons, Option.some.injEq,
      Prod.mk.injEq]
    exact ⟨by omega, trivial⟩

/-- A buffer with no delimiter bytes has no delimiter to find. -/
theorem findDelim_none {l : List Nat} (h : ∀ x ∈ l, isDelim x = false) :
    findDelim l = none := by
  induction l with
  | nil => rfl
  | cons b fl ih =>
    have hb : isDelim b = false := h b (by simp)
    simp [findDelim, hb, ih (fun x hx => h x (by simp [hx]))]

/-- A cell's leading delimiter run is found at its start. -/
theorem findDelim_replicate {o : Nat} (ho : isDelim o = true) {n : Nat}
    (hn : 1 ≤ n) (t : List Nat) :
    findDelim (List.replicate n o ++ t) = some (0, o) := by
  cases n with
  | zero => omega
  | succ m => simp [List.replicate_succ, findDelim, ho]

/-- The opening run is measured exactly when a differing byte follows. -/
theorem findRun_replicate {o : Nat} (n : Nat) :
    ∀ {t : List Nat}, t ≠ [] → t.head? ≠ some o →
      findRun o (List.replicate n o ++ t) = some n := by
  induction n with
  | zero =>
    intro t ht hhead
    cases t with
    | nil => exact absurd rfl ht
    | cons x t' =>
      have hx : ¬ x = o := fun h => hhead (by simp [h])
      simp [findRun, hx]
  | succ m ih =>
    intro t ht hhead
    simp [List.replicate_succ, findRun, ih ht hhead]

/-- A trailing delimiter run reaching the end of the buffer is never
terminated. -/
theorem findRun_replicate_nil (o : Nat) : ∀ n, findRun o (List.replicate n o) = none := by
  intro n
  induction n with
  | zero => rfl
  | succ m ih => simp [List.replicate_succ, findRun, ih]

/-! ## Decoding one well-formed cell -/

/-- The well-formedness facts about an encoded cell that make the decoder
recover its content exactly: the cell is `o^n ++ content ++ (rch o)^n` for a
delimiter byte `o` with `n ≥ 1`, the byte just after the opening run differs
from `o`, `content` has no trailing run of the closing byte, and every run
of the closing byte inside `content` is shorter than `n`. -/
def GoodCell (o n : Nat) (content cell : List Nat) : Prop :=
  isDelim o = true ∧ 1 ≤ n ∧
  cell = List.replicate n o ++ content ++ List.replicate n (rch o) ∧
  (content ++ List.replicate n (rch o)).head? ≠ some o ∧
  runCount (rch o) 0 content = 0 ∧
  ∀ p q, content = p ++ q → runCount (rch o) 0 p < n

/-- A single decoder step on non-delimiter filler followed by a well-formed
cell yields exactly the cell's content and leaves the cursor just past the
cell, whatever follows. -/
theorem nelfNext_goodCell {o n : Nat} {content cell : List Nat}
    (hg : GoodCell o n content cell) (fill b : List Nat)
    (hf : ∀ x ∈ fill, isDelim x = false) :
    nelfNext (fill ++ cell ++ b) 0 = some (content, fill.length + cell.length) := by
  obtain ⟨ho, hn, hcell, hhead, hrc0, hruns⟩ := hg
  subst hcell
  set rc := rch o with hrc
  set t : List Nat := content ++ (List.replicate n rc ++ b) with ht
  have hs : fill ++ (List.replicate n o ++ content ++ List.replicate n rc) ++ b =
      fill ++ (List.replicate n o ++ t) := by
    simp [ht, List.append_assoc]
  have ht_ne : t ≠ [] := by
    rw [ht]
    intro h
    have := congrArg List.length h
    simp [List.length_append, List.length_replicate] at this
    omega
  have hrep_head : (List.replicate n rc).head? = some rc := by
    cases n with
    | zero => omega
    | succ m => simp [List.replicate_succ]
  have ht_head : t.head? ≠ some o := by
    rw [ht, List.head?_append, List.head?_append, hrep_head]
    rw [show (some rc).or b.head? = some rc from rfl]
    intro hcon
    apply hhead
    rw [List.head?_append, hrep_head]
    exact hcon
  have h1 : findDelim (fill ++ (List.replicate n o ++ t)) =
      some (fill.length + 0, o) :=
    findDelim_fill hf (findDelim_replicate ho hn t)
  have h2 : (fill ++ (List.replicate n o ++ t)).drop (0 + (fill.length + 0)) =
      List.replicate n o ++ t := by
    rw [show 0 + (fill.length + 0) = fill.length + 0 by omega, List.drop_append]
    rfl
  have h3 : findRun o (List.replicate n o ++ t) = some n :=
    findRun_replicate n ht_ne ht_head
  have h4 : (fill ++ (List.replicate n o ++ t)).drop (0 + (fill.length + 0) + n) = t := by
    rw [show 0 + (fill.length + 0) + n = fill.length + n by omega, List.drop_append]
    rw [List.drop_left' (List.length_replicate n o)]
  have h5 : closeLoop rc n t 0 = (n + content.length, n) := by
    rw [ht, closeLoop_through rc n _ content 0 (fun p q hpq => hruns p q hpq)]
    rw [hrc0, closeLoop_replicate rc n b n 0 (by omega)]
  rw [hs]
  simp only [nelfNext, List.drop_zero, h1, h2, h3, h4, h5, eq_self_iff_true,
    if_true, Option.some.injEq, Prod.mk.injEq]
  constructor
  · rw [show n + content.length - n = content.length by omega, ht]
    exact List.take_left content _
  · simp only [List.length_append, List.length_replicate]
    omega

/-! ## Unfolding and locality of `nelfDecode` -/

theorem nelfDecode_none {s : List Nat} {i : Nat} (h : nelfNext s i = none) :
    nelfDecode s i = [] := by
  rw [nelfDecode]
  split
  · rfl
  · rename_i x heq
    rw [h] at heq
    cases heq

theorem nelfDecode_some {s : List Nat} {i : Nat} {c : List Nat} {j : Nat}
    (h : nelfNext s i = some (c, j)) :
    nelfDecode s i = c :: nelfDecode s j := by
  rw [nelfDecode]
  split
  · rename_i heq
    rw [h] at heq
    cases heq
  · rename_i x heq
    rw [h] at heq
    have := Option.some.inj heq
    subst this
    rfl

/-- Past the end of the buffer, the iterator is exhausted. -/
theorem nelfNext_none_of_le {s : List Nat} {i : Nat} (h : s.length ≤ i) :
    nelfNext s i = none := by
  have : s.drop i = [] := List.drop_eq_nil_of_le h
  simp [nelfNext, this, findDelim]

/-- One decoder step is local: it only looks at the buffer from the cursor
on, so a prefix of the buffer wholly before the cursor merely offsets it. -/
theorem nelfNext_shift (a b : List Nat) (k : Nat) :
    nelfNext (a ++ b) (a.length + k) =
      (nelfNext b k).map (fun x => (x.1, a.length + x.2)) := by
  have hD : ∀ m : Nat, (a ++ b).drop (a.length + m) = b.drop m :=
    fun m => List.drop_append m
  cases hfd : findDelim (b.drop k) with
  | none => simp [nelfNext, hD k, hfd]
  | some dl =>
    obtain ⟨d, lch⟩ := dl
    have e1 : a.length + k + d = a.length + (k + d) := by omega
    cases hfr : findRun lch (b.drop (k + d)) with
    | none => simp [nelfNext, hD k, hfd, e1, hD (k + d), hfr]
    | some len =>
      have e2 : a.length + (k + d) + len = a.length + (k + d + len) := by omega
      simp only [nelfNext, hD k, hfd, e1, hD (k + d), hfr, e2, hD (k + d + len),
        Option.map_some']
      by_cases hc : (closeLoop (rch lch) len (b.drop (k + d + len)) 0).2 = len
      · rw [if_pos hc, if_pos hc]
        simp only [Option.map_some', Option.some.injEq, Prod.mk.injEq]
        exact ⟨trivial, by omega⟩
      · rw [if_neg hc, if_neg hc]
        simp only [Option.map_some', Option.some.injEq, Prod.mk.injEq]
        exact ⟨trivial, by omega⟩

/-- Decoding is local in the same sense. -/
theorem nelfDecode_shift (a b : List Nat) (k : Nat) :
    nelfDecode (a ++ b) (a.length + k) = nelfDecode b k := by
  suffices H : ∀ m k, b.length - k = m →
      nelfDecode (a ++ b) (a.length + k) = nelfDecode b k from H _ k rfl
  intro m
  induction m using Nat.strong_induction_on with
  | _ m ih =>
    intro k hm
    cases hnx : nelfNext b k with
    | none =>
      have hsh := nelfNext_shift a b k
      rw [hnx] at hsh
      rw [nelfDecode_none hnx, nelfDecode_none (by rw [hsh]; rfl)]
    | some x =>
      obtain ⟨c, j⟩ := x
      obtain ⟨hlt, hle⟩ := nelfNext_progress hnx
      have hsh := nelfNext_shift a b k
      rw [hnx] at hsh
      rw [nelfDecode_some hnx, nelfDecode_some (show _ = some (c, a.length + j) by rw [hsh]; rfl)]
      rw [ih (b.length - j) (by omega) j rfl]

/-! ## The encoder always produces a well-formed cell -/

/-- A first or last byte can collide with at most one scheme each, so the
three eligibility flags of `to_cell` are never all cleared. -/
theorem eligible_disjunction (s : List Nat) :
    pipeOk s = true ∨ forwardOk s = true ∨ backOk s = true := by
  simp only [pipeOk, forwardOk, backOk, PIPE, FWD, BACK, Bool.not_eq_true',
    Bool.or_eq_false_iff, beq_eq_false_iff_ne, ne_eq]
  omega

/-- The selected run length is at least 1. -/
theorem cellN_pos (s : List Nat) : 1 ≤ cellN s := by
  have hU : 1 ≤ usizeMax := by decide
  have h1 : 1 ≤ pipeMax s := by
    rw [pipeMax]; split <;> omega
  have h2 : 1 ≤ forwardMax s := by
    rw [forwardMax]; split <;> omega
  have h3 : 1 ≤ backMax s := by
    rw [backMax]; split <;> omega
  rw [cellN]
  omega

/-- For buffers of machine-representable size, the selected run length never
reaches the `usize::MAX` sentinel. -/
theorem cellN_lt_usizeMax (s : List Nat) (hlen : s.length + 1 < usizeMax) :
    cellN s < usizeMax := by
  have hbound : ∀ c, scanMax c s + 1 < usizeMax :=
    fun c => by have := scanMax_le_length c s; omega
  rcases eligible_disjunction s with h | h | h
  · have : pipeMax s < usizeMax := by rw [pipeMax, if_pos h]; exact hbound _
    rw [cellN]; omega
  · have : forwardMax s < usizeMax := by rw [forwardMax, if_pos h]; exact hbound _
    rw [cellN]; omega
  · have : backMax s < usizeMax := by rw [backMax, if_pos h]; exact hbound _
    rw [cellN]; omega

/-- The opening byte of the scheme selected by `to_cell`'s `if` chain (for
non-empty input). -/
def cellOpen (s : List Nat) : Nat :=
  if pipeMax s = cellN s then PIPE else if forwardMax s = cellN s then FWD else BACK

theorem head?_append_left {s : List Nat} (hs : s ≠ []) (X : List Nat) :
    (s ++ X).head? = some (s.headD 0) := by
  cases s with
  | nil => exact absurd rfl hs
  | cons x s' => rfl

/-- On non-empty input, `to_cell` emits the selected scheme's opening run,
the input verbatim, and the matching closing run, and the result is a
well-formed cell. -/
theorem goodCell_to_cell {s : List Nat} (hs : s ≠ [])
    (hlen : s.length + 1 < usizeMax) :
    GoodCell (cellOpen s) (cellN s) s (to_cell s) := by
  have hE : ¬ s.isEmpty = true := by
    cases s with
    | nil => exact absurd rfl hs
    | cons x t => simp
  have hpos := cellN_pos s
  have hlt := cellN_lt_usizeMax s hlen
  have hruns_of : ∀ c, cellN s = scanMax c s + 1 →
      ∀ p q, s = p ++ q → runCount c 0 p < cellN s := by
    intro c hc p q hpq
    have := runCount_prefix_le_scanMax c p q
    rw [← hpq] at this
    omega
  by_cases hp : pipeMax s = cellN s
  · have hpOk : pipeOk s = true := by
      by_contra hno
      rw [Bool.not_eq_true] at hno
      rw [pipeMax, if_neg (by simp [hno])] at hp
      omega
    obtain ⟨hhead, hlast⟩ : ¬ s.headD 0 = PIPE ∧ ¬ s.getLastD 0 = PIPE := by
      simpa [pipeOk, Bool.or_eq_false_iff] using hpOk
    have hN : cellN s = scanMax PIPE s + 1 := by
      rw [← hp, pipeMax, if_pos hpOk]
    refine ⟨by rw [cellOpen, if_pos hp]; decide, hpos, ?_, ?_, ?_, ?_⟩
    · rw [to_cell, if_neg hE, if_pos hp, cellOpen, if_pos hp]
      rfl
    · rw [cellOpen, if_pos hp, show rch PIPE = PIPE from rfl,
        head?_append_left hs]
      simpa using hhead
    · rw [cellOpen, if_pos hp, show rch PIPE = PIPE from rfl]
      exact runCount_zero_of_last hs hlast
    · rw [cellOpen, if_pos hp, show rch PIPE = PIPE from rfl]
      exact hruns_of PIPE hN
  · by_cases hf : forwardMax s = cellN s
    · have hfOk : forwardOk s = true := by
        by_contra hno
        rw [Bool.not_eq_true] at hno
        rw [forwardMax, if_neg (by simp [hno])] at hf
        omega
      obtain ⟨hhead, hlast⟩ : ¬ s.headD 0 = FWD ∧ ¬ s.getLastD 0 = BACK := by
        simpa [forwardOk, Bool.or_eq_false_iff] using hfOk
      have hN : cellN s = scanMax BACK s + 1 := by
        rw [← hf, forwardMax, if_pos hfOk]
      refine ⟨by rw [cellOpen, if_neg hp, if_pos hf]; decide, hpos, ?_, ?_, ?_, ?_⟩
      · rw [to_cell, if_neg hE, if_neg hp, if_pos hf, cellOpen, if_neg hp, if_pos hf]
        rfl
      · rw [cellOpen, if_neg hp, if_pos hf, show rch FWD = BACK from rfl,
          head?_append_left hs]
        simpa using hhead
      · rw [cellOpen, if_neg hp, if_pos hf, show rch FWD = BACK from rfl]
        exact runCount_zero_of_last hs hlast
      · rw [cellOpen, if_neg hp, if_pos hf, show rch FWD = BACK from rfl]
        exact hruns_of BACK hN
    · have hb : backMax s = cellN s := by
        have h1 : cellN s = Nat.min (Nat.min (pipeMax s) (forwardMax s)) (backMax s) :=
          rfl
        rw [cellN] at hp hf ⊢
        omega
      have hbOk : backOk s = true := by
        by_contra hno
        rw [Bool.not_eq_true] at hno
        rw [backMax, if_neg (by simp [hno])] at hb
        omega
      obtain ⟨hhead, hlast⟩ : ¬ s.headD 0 = BACK ∧ ¬ s.getLastD 0 = FWD := by
        simpa [backOk, Bool.or_eq_false_iff] using hbOk
      have hN : cellN s = scanMax FWD s + 1 := by
        rw [← hb, backMax, if_pos hbOk]
      refine ⟨by rw [cellOpen, if_neg hp, if_neg hf]; decide, hpos, ?_, ?_, ?_, ?_⟩
      · rw [to_cell, if_neg hE, if_neg hp, if_neg hf, cellOpen, if_neg hp, if_neg hf]
        rfl
      · rw [cellOpen, if_neg hp, if_neg hf, show rch BACK = FWD from rfl,
          head?_append_left hs]
        simpa using hhead
      · rw [cellOpen, if_neg hp, if_neg hf, show rch BACK = FWD from rfl]
        exact runCount_zero_of_last hs hlast
      · rw [cellOpen, if_neg hp, if_neg hf, show rch BACK = FWD from rfl]
        exact hruns_of FWD hN

/-- The empty string's cell `/\` is well formed. -/
theorem goodCell_empty : GoodCell FWD 1 [] (to_cell []) := by
  refine ⟨by decide, by omega, by decide, by decide, by decide, ?_⟩
  intro p q hpq
  have hp : p = [] := by
    cases p with
    | nil => rfl
    | cons x p' => simp at hpq
  subst hp
  simp [runCount]

/-- Every byte string of machine-representable size encodes to a
well-formed cell. -/
theorem to_cell_goodCell (s : List Nat) (hlen : s.length + 1 < usizeMax) :
    ∃ o n, GoodCell o n s (to_cell s) := by
  cases hs : s with
  | nil => exact ⟨FWD, 1, goodCell_empty⟩
  | cons x s' =>
    rw [← hs]
    exact ⟨cellOpen s, cellN s, goodCell_to_cell (by simp [hs]) hlen⟩

/-- The decoded sequence is finite, with at most one cell per remaining
buffer byte. -/
theorem nelfDecode_length_le (s : List Nat) :
    ∀ i, (nelfDecode s i).length ≤ s.length - i := by
  suffices H : ∀ m i, s.length - i = m → (nelfDecode s i).length ≤ s.length - i from
    fun i => H _ i rfl
  intro m
  induction m using Nat.strong_induction_on with
  | _ m ih =>
    intro i hm
    cases hnx : nelfNext s i with
    | none => rw [nelfDecode_none hnx]; simp
    | some x =>
      obtain ⟨c, j⟩ := x
      obtain ⟨h1, h2⟩ := nelfNext_progress hnx
      rw [nelfDecode_some hnx]
      have := ih (s.length - j) (by omega) j rfl
      simp only [List.length_cons]
      omega

/-- A step whose remaining suffix has no delimiter bytes ends the
sequence. -/
theorem nelfNext_fill_end {s : List Nat} {i : Nat}
    (h : ∀ x ∈ s.drop i, isDelim x = false) : nelfNext s i = none := by
  simp [nelfNext, findDelim_none h]

/-- Part (a) of the lenient-decoding behaviour: no delimiter bytes at all
means an empty decoded sequence. -/
theorem nelfDecode_no_delim {s : List Nat} (h : ∀ x ∈ s, isDelim x = false) :
    nelfDecode s 0 = [] :=
  nelfDecode_none (nelfNext_fill_end (by simpa using h))

/-- Part (b): a delimiter run that extends to the end of the buffer ends
the sequence without yielding a cell. -/
theorem nelfDecode_dangling_run {fill : List Nat} {m d : Nat}
    (hf : ∀ x ∈ fill, isDelim x = false) (hd : isDelim d = true) (hm : 1 ≤ m) :
    nelfDecode (fill ++ List.replicate m d) 0 = [] := by
  apply nelfDecode_none
  have h1 : findDelim (fill ++ List.replicate m d) = some (fill.length + 0, d) := by
    apply findDelim_fill hf
    have := findDelim_replicate hd hm ([] : List Nat)
    rwa [List.append_nil] at this
  have h2 : (fill ++ List.replicate m d).drop (0 + (fill.length + 0)) =
      List.replicate m d := by
    rw [show 0 + (fill.length + 0) = fill.length + 0 by omega, List.drop_append]
    rfl
  simp [nelfNext, h1, h2, findRun_replicate_nil]

/-- Part (c): an opening run never matched by a full closing run yields the
whole remainder of the buffer as the cell content, and the sequence then
ends. -/
theorem nelfDecode_unclosed {fill : List Nat} {n d : Nat} {t : List Nat}
    (hf : ∀ x ∈ fill, isDelim x = false) (hd : isDelim d = true) (hn : 1 ≤ n)
    (ht : t ≠ []) (hhead : t.head? ≠ some d)
    (hrun : ∀ k, k ≤ t.length → runCount (rch d) 0 (t.take k) < n) :
    nelfDecode (fill ++ List.replicate n d ++ t) 0 = [t] := by
  rw [List.append_assoc]
  have h1 : findDelim (fill ++ (List.replicate n d ++ t)) =
      some (fill.length + 0, d) :=
    findDelim_fill hf (findDelim_replicate hd hn t)
  have h2 : (fill ++ (List.replicate n d ++ t)).drop (0 + (fill.length + 0)) =
      List.replicate n d ++ t := by
    rw [show 0 + (fill.length + 0) = fill.length + 0 by omega, List.drop_append]
    rfl
  have h3 : findRun d (List.replicate n d ++ t) = some n :=
    findRun_replicate n ht hhead
  have h4 : (fill ++ (List.replicate n d ++ t)).drop (0 + (fill.length + 0) + n) = t := by
    rw [show 0 + (fill.length + 0) + n = fill.length + n by omega, List.drop_append]
    rw [List.drop_left' (List.length_replicate n d)]
  have hpref : ∀ p q, t = p ++ q → runCount (rch d) 0 p < n := by
    intro p q hpq
    have hp : p = t.take p.length := by
      rw [hpq, List.take_left]
    have hle : p.length ≤ t.length := by
      rw [hpq, List.length_append]
      omega
    rw [hp]
    exact hrun p.length hle
  have h5 : closeLoop (rch d) n t 0 = (t.length, runCount (rch d) 0 t) := by
    have := closeLoop_through (rch d) n [] t 0 hpref
    rw [List.append_nil] at this
    rw [this]
    simp [closeLoop]
  have hcount : ¬ runCount (rch d) 0 t = n := by
    have := hrun t.length (Nat.le_refl _)
    rw [List.take_length] at this
    omega
  have h6 : nelfNext (fill ++ (List.replicate n d ++ t)) 0 =
      some (t, 0 + (fill.length + 0) + n + t.length) := by
    simp only [nelfNext, List.drop_zero, h1, h2, h3, h4, h5, if_neg hcount]
  rw [nelfDecode_some h6]
  rw [nelfDecode_none (nelfNext_none_of_le (by simp [List.length_append]; omega))]

/-- A one-byte cell with run length 1 is well formed as soon as its content
byte differs from both delimiters of the scheme. -/
theorem goodCell_single (o x : Nat) (ho : isDelim o = true) (hxo : ¬ x = o)
    (hxr : ¬ x = rch o) : GoodCell o 1 [x] [o, x, rch o] := by
  refine ⟨ho, by omega, by simp, ?_, ?_, ?_⟩
  · simp [hxo]
  · simp [runCount, hxr]
  · intro p q hpq
    cases p with
    | nil => simp [runCount]
    | cons y p' =>
      have h1 : x = y ∧ [] = p' ++ q := by
        rw [List.cons_append] at hpq
        exact ⟨(List.cons.inj hpq).1, (List.cons.inj hpq).2⟩
      obtain ⟨hxy, happ⟩ := h1
      obtain ⟨hp', -⟩ := List.append_eq_nil.mp happ.symm
      subst hp'
      subst hxy
      simp [runCount, hxr]

/-! ## Spec-side characterisation of run lengths and scheme selection -/

/-- Modelled from the spec's wording (§4.2): the length of the longest run
of consecutive occurrences of byte `c` anywhere inside `s`, i.e. the
largest `k` such that `k` consecutive copies of `c` appear as an infix of
`s` (0 if `c` does not occur). -/
def longestRun (c : Nat) (s : List Nat) : Nat :=
  ((List.range (s.length + 1)).filter
    (fun k => decide (List.replicate k c <:+: s))).foldr max 0

/-- The encoder's scan maximum computes exactly the spec's longest run. -/
theorem scanMax_eq_longestRun (c : Nat) (s : List Nat) :
    scanMax c s = longestRun c s := by
  apply Nat.le_antisymm
  · obtain ⟨p, q, hpq⟩ := scanMax_attained c s
    rw [longestRun]
    apply le_foldr_max
    rw [List.mem_filter]
    constructor
    · rw [List.mem_range]
      have := scanMax_le_length c s
      omega
    · exact decide_eq_true ⟨p, q, hpq.symm⟩
  · rcases foldr_max_mem ((List.range (s.length + 1)).filter
        (fun k => decide (List.replicate k c <:+: s))) with hm | hz
    · have h2 := (List.mem_filter.mp hm).2
      obtain ⟨p, q, hpq⟩ := of_decide_eq_true h2
      have h3 := run_le_scanMax c p (longestRun c s) q
      rw [show longestRun c s = ((List.range (s.length + 1)).filter
          (fun k => decide (List.replicate k c <:+: s))).foldr max 0 from rfl] at h3 ⊢
      rw [hpq] at h3
      exact h3
    · rw [longestRun, hz]
      exact Nat.zero_le _

/-- For non-empty machine-size input, the run length selected by `to_cell`
is exactly one more than the encoder's scan maximum for the chosen scheme's
closing byte. -/
theorem cellN_eq_scanMax_close (s : List Nat) (hs : s ≠ [])
    (hlen : s.length + 1 < usizeMax) :
    cellN s = scanMax (rch (cellOpen s)) s + 1 := by
  have hlt := cellN_lt_usizeMax s hlen
  by_cases hp : pipeMax s = cellN s
  · rw [cellOpen, if_pos hp, show rch PIPE = PIPE from rfl]
    have hpOk : pipeOk s = true := by
      by_contra hno
      rw [Bool.not_eq_true] at hno
      rw [pipeMax, if_neg (by simp [hno])] at hp
      omega
    rw [← hp, pipeMax, if_pos hpOk]
  · by_cases hf : forwardMax s = cellN s
    · rw [cellOpen, if_neg hp, if_pos hf, show rch FWD = BACK from rfl]
      have hfOk : forwardOk s = true := by
        by_contra hno
        rw [Bool.not_eq_true] at hno
        rw [forwardMax, if_neg (by simp [hno])] at hf
        omega
      rw [← hf, forwardMax, if_pos hfOk]
    · have hb : backMax s = cellN s := by
        rw [cellN] at hp hf ⊢
        omega
      rw [cellOpen, if_neg hp, if_neg hf, show rch BACK = FWD from rfl]
      have hbOk : backOk s = true := by
        by_contra hno
        rw [Bool.not_eq_true] at hno
        rw [backMax, if_neg (by simp [hno])] at hb
        omega
      rw [← hb, backMax, if_pos hbOk]

/-- Modelled from the spec (§4.2): the three delimiter schemes in the fixed
preference order `PIPE, FWD, BACK`, filtered by the edge-collision
eligibility rule (ineligible iff the first byte equals the open byte or the
last byte equals the close byte). -/
def specSchemes (s : List Nat) : List (Nat × Nat) :=
  [(PIPE, PIPE), (FWD, BACK), (BACK, FWD)].filter
    (fun oc => !(s.headD 0 == oc.1 || s.getLastD 0 == oc.2))

/-- Modelled from the spec: pick the candidate with the smallest key,
keeping the earliest candidate in case of ties. -/
def pickMin (key : Nat × Nat → Nat) : List (Nat × Nat) → Option (Nat × Nat)
  | [] => none
  | x :: rest =>
    match pickMin key rest with
    | none => some x
    | some y => if key y < key x then some y else some x

/-- Modelled from the spec (§4.2): among the eligible schemes pick the one
with the smallest required run length `1 + longest close-byte run`,
breaking ties by the preference order, and assemble open-run, content,
close-run. -/
def specEncode (s : List Nat) : List Nat :=
  if s = [] then [FWD, BACK]
  else
    match pickMin (fun oc => longestRun oc.2 s + 1) (specSchemes s) with
    | none => []
    | some oc =>
      List.replicate (longestRun oc.2 s + 1) oc.1 ++ s ++
        List.replicate (longestRun oc.2 s + 1) oc.2

theorem pickMin_single (key : Nat × Nat → Nat) (x : Nat × Nat) :
    pickMin key [x] = some x := rfl

theorem pickMin_cons (key : Nat × Nat → Nat) (x : Nat × Nat)
    {rest : List (Nat × Nat)} {y : Nat × Nat} (h : pickMin key rest = some y) :
    pickMin key (x :: rest) = if key y < key x then some y else some x := by
  rw [pickMin, h]

theorem specEncode_eq {s : List Nat} (hs : ¬ s = []) {oc : Nat × Nat}
    (h : pickMin (fun oc => longestRun oc.2 s + 1) (specSchemes s) = some oc) :
    specEncode s = List.replicate (longestRun oc.2 s + 1) oc.1 ++ s ++
      List.replicate (longestRun oc.2 s + 1) oc.2 := by
  rw [specEncode, if_neg hs, h]

/-! ## Claim theorems -/

/-- C1: for every byte string `s` (including the empty string, and with `s`
small enough to be a Rust slice), decoding the buffer produced by
`encode_one(s)` (`ToCell::to_cell`) with the cell decoder (`NelfIter`)
yields a sequence containing exactly one element, and that element equals
`s`. -/
theorem roundtrip_encode_one (s : List Nat) (hlen : s.length + 1 < usizeMax) :
    nelfDecode (to_cell s) 0 = [s] := by
  obtain ⟨o, n, hg⟩ := to_cell_goodCell s hlen
  have h := nelfNext_goodCell hg [] [] (by simp)
  rw [List.nil_append, List.append_nil] at h
  simp only [List.length_nil, Nat.zero_add] at h
  rw [nelfDecode_some h, nelfDecode_none (nelfNext_none_of_le (Nat.le_refl _))]

/-- Witness for C1 at `s = "A"` and `s = ""`. -/
theorem roundtrip_encode_one_witness :
    (([65] : List Nat).length + 1 < usizeMax ∧ nelfDecode (to_cell [65]) 0 = [[65]]) ∧
    (([] : List Nat).length + 1 < usizeMax ∧ nelfDecode (to_cell []) 0 = [[]]) :=
  ⟨⟨by decide, roundtrip_encode_one [65] (by decide)⟩,
    ⟨by decide, roundtrip_encode_one [] (by decide)⟩⟩

/-- C2: for every ordered sequence of byte strings `L` (each small enough to
be a Rust slice), decoding the concatenated buffer produced by
`encode_list(L)` (`ToNelf::to_nelf`) yields exactly the elements of `L`, in
their original order, with no extra or missing elements. -/
theorem roundtrip_encode_list (L : List (List Nat))
    (h : ∀ s ∈ L, s.length + 1 < usizeMax) :
    nelfDecode (to_nelf L) 0 = L := by
  induction L with
  | nil => exact nelfDecode_none (nelfNext_none_of_le (by simp [to_nelf]))
  | cons s rest ih =>
    obtain ⟨o, n, hg⟩ := to_cell_goodCell s (h s (by simp))
    have h1 := nelfNext_goodCell hg [] (to_nelf rest) (by simp)
    rw [List.nil_append] at h1
    simp only [List.length_nil, Nat.zero_add] at h1
    show nelfDecode (to_cell s ++ to_nelf rest) 0 = s :: rest
    rw [nelfDecode_some h1]
    have h2 : nelfDecode (to_cell s ++ to_nelf rest) ((to_cell s).length) =
        nelfDecode (to_nelf rest) 0 := by
      have := nelfDecode_shift (to_cell s) (to_nelf rest) 0
      simpa using this
    rw [h2, ih (fun t ht => h t (by simp [ht]))]

/-- Witness for C2 at `L = ["A", "", "|/"]`. -/
theorem roundtrip_encode_list_witness :
    (∀ s ∈ ([[65], [], [124, 47]] : List (List Nat)), s.length + 1 < usizeMax) ∧
    nelfDecode (to_nelf [[65], [], [124, 47]]) 0 = [[65], [], [124, 47]] :=
  ⟨by decide, roundtrip_encode_list [[65], [], [124, 47]] (by decide)⟩

/-- C5: for every non-empty byte string `s` (of Rust slice size), at least
one scheme is eligible: the three required-run-length values are never all
left at the `usize::MAX` sentinel, the selected run length is at most
`length s + 1`, and the branch that would emit a `usize::MAX`-length
delimiter run is unreachable (`cellN s < usizeMax`). -/
theorem always_eligible (s : List Nat) (hs : s ≠ [])
    (hlen : s.length + 1 < usizeMax) :
    ¬(pipeMax s = usizeMax ∧ forwardMax s = usizeMax ∧ backMax s = usizeMax) ∧
    cellN s ≤ s.length + 1 ∧ cellN s < usizeMax := by
  have hlt := cellN_lt_usizeMax s hlen
  refine ⟨?_, ?_, hlt⟩
  · rintro ⟨h1, h2, h3⟩
    rw [cellN, h1, h2, h3] at hlt
    simp at hlt
  · rcases eligible_disjunction s with h | h | h
    · have : pipeMax s ≤ s.length + 1 := by
        rw [pipeMax, if_pos h]
        have := scanMax_le_length PIPE s
        omega
      rw [cellN]; omega
    · have : forwardMax s ≤ s.length + 1 := by
        rw [forwardMax, if_pos h]
        have := scanMax_le_length BACK s
        omega
      rw [cellN]; omega
    · have : backMax s ≤ s.length + 1 := by
        rw [backMax, if_pos h]
        have := scanMax_le_length FWD s
        omega
      rw [cellN]; omega

/-- Witness for C5 at `s = "|"` (both edges collide with the pipe scheme). -/
theorem always_eligible_witness :
    (([124] : List Nat) ≠ [] ∧ ([124] : List Nat).length + 1 < usizeMax) ∧
    (¬(pipeMax [124] = usizeMax ∧ forwardMax [124] = usizeMax ∧
        backMax [124] = usizeMax) ∧
      cellN [124] ≤ ([124] : List Nat).length + 1 ∧ cellN [124] < usizeMax) :=
  ⟨⟨by decide, by decide⟩, always_eligible [124] (by decide) (by decide)⟩

/-- C6: the golden encoder vectors: `"" ↦ /\`, `"|" ↦ /|\` (not the pipe
scheme), `"/" ↦ |/|`, `"\" ↦ |\|`, `"/|" ↦ \\/|//`, `"|/\|" ↦ //|/\|\\`. -/
theorem encode_golden_vectors :
    to_cell ([] : List Nat) = [FWD, BACK] ∧
    to_cell [PIPE] = [FWD, PIPE, BACK] ∧
    to_cell [FWD] = [PIPE, FWD, PIPE] ∧
    to_cell [BACK] = [PIPE, BACK, PIPE] ∧
    to_cell [FWD, PIPE] = [BACK, BACK, FWD, PIPE, FWD, FWD] ∧
    to_cell [PIPE, FWD, BACK, PIPE] =
      [FWD, FWD, PIPE, FWD, BACK, PIPE, BACK, BACK] := by
  decide

/-- C9: each decoder step terminates with the cursor still inside the
buffer, the cursor strictly increases whenever a cell is yielded, and the
decoder yields only finitely many cells (at most one per remaining byte)
before end-of-sequence. -/
theorem decoder_progress_and_finite (s : List Nat) (i : Nat) :
    (∀ c j, nelfNext s i = some (c, j) → i < j ∧ j ≤ s.length) ∧
    (nelfDecode s i).length ≤ s.length - i :=
  ⟨fun _ _ h => nelfNext_progress h, nelfDecode_length_le s i⟩

/-- Witness for C9 on the buffer `|A|` at cursor 0. -/
theorem decoder_progress_and_finite_witness :
    (0 < 3 ∧ 3 ≤ ([PIPE, 65, PIPE] : List Nat).length) ∧
    (nelfDecode [PIPE, 65, PIPE] 0).length ≤ ([PIPE, 65, PIPE] : List Nat).length - 0 :=
  ⟨(decoder_progress_and_finite [PIPE, 65, PIPE] 0).1 [65] 3 (by decide),
    (decoder_progress_and_finite [PIPE, 65, PIPE] 0).2⟩

/-- C10: encoding the empty sequence yields the empty buffer, and decoding
the empty buffer yields the empty sequence (the first `next()` call returns
end-of-sequence). -/
theorem empty_list_roundtrip :
    to_nelf [] = [] ∧ nelfDecode [] 0 = [] ∧ nelfNext [] 0 = none :=
  ⟨rfl, nelfDecode_none rfl, rfl⟩

/-- C7: the decoder never errors and degrades gracefully: (a) a buffer with
no delimiter byte decodes to the empty sequence; (b) a delimiter run that
extends to the end of the buffer (after any non-delimiter filler) ends the
sequence without yielding a cell; (c) a cell whose opening run is never
matched by a full closing run (no `n` consecutive closing bytes occur in
the remainder `t`) yields the remainder of the buffer as that cell's
content, after which the sequence ends. -/
theorem decoder_lenient :
    (∀ s : List Nat, (∀ x ∈ s, isDelim x = false) → nelfDecode s 0 = []) ∧
    (∀ (fill : List Nat) (m d : Nat), (∀ x ∈ fill, isDelim x = false) →
      isDelim d = true → 1 ≤ m → nelfDecode (fill ++ List.replicate m d) 0 = []) ∧
    (∀ (fill : List Nat) (n d : Nat) (t : List Nat),
      (∀ x ∈ fill, isDelim x = false) → isDelim d = true → 1 ≤ n →
      t ≠ [] → t.head? ≠ some d →
      (∀ k, k ≤ t.length → runCount (rch d) 0 (t.take k) < n) →
      nelfDecode (fill ++ List.replicate n d ++ t) 0 = [t]) :=
  ⟨fun _ h => nelfDecode_no_delim h,
    fun _ _ _ hf hd hm => nelfDecode_dangling_run hf hd hm,
    fun _ _ _ _ hf hd hn ht hh hr => nelfDecode_unclosed hf hd hn ht hh hr⟩

/-- Witness for C7: `"AB"` has no delimiters; `"A||"` is a dangling run;
`"A/BC"` is an unclosed cell yielding `"BC"`. -/
theorem decoder_lenient_witness :
    nelfDecode [65, 66] 0 = [] ∧
    nelfDecode ([65] ++ List.replicate 2 PIPE) 0 = [] ∧
    nelfDecode ([65] ++ List.replicate 1 FWD ++ [66, 67]) 0 = [[66, 67]] :=
  ⟨decoder_lenient.1 [65, 66] (by decide),
    decoder_lenient.2.1 [65] 2 PIPE (by decide) (by decide) (by decide),
    decoder_lenient.2.2 [65] 1 FWD [66, 67] (by decide) (by decide) (by decide)
      (by decide) (by decide) (by decide)⟩

/-- C8 counterexample: with the "arbitrary" filler byte `C = '/'`, the
buffer `C|A|C = "/|A|/"` does not decode to `["A"]` — the leading `/`
opens a cell that is never closed, so the decoder yields `"|A|/"`. -/
theorem filler_tolerance_counterexample :
    nelfDecode [FWD, PIPE, 65, PIPE, FWD] 0 ≠ [[65]] := by
  have h1 : nelfNext [FWD, PIPE, 65, PIPE, FWD] 0 =
      some ([PIPE, 65, PIPE, FWD], 5) := by decide
  rw [nelfDecode_some h1,
    nelfDecode_none (nelfNext_none_of_le (by decide))]
  decide

/-- C8 (amended): for every filler byte `C` that is not one of the three
delimiter bytes, decoding `C|A|C`, `C/A\C` and `C\A/C` each yields exactly
`["A"]`. -/
theorem filler_tolerance (C : Nat) (hC : isDelim C = false) :
    nelfDecode [C, PIPE, 65, PIPE, C] 0 = [[65]] ∧
    nelfDecode [C, FWD, 65, BACK, C] 0 = [[65]] ∧
    nelfDecode [C, BACK, 65, FWD, C] 0 = [[65]] := by
  have hfill : ∀ x ∈ [C], isDelim x = false := by
    intro x hx
    rw [List.mem_singleton] at hx
    subst hx
    exact hC
  refine ⟨?_, ?_, ?_⟩
  · have hg := goodCell_single PIPE 65 (by decide) (by decide) (by decide)
    have h1 := nelfNext_goodCell hg [C] [C] hfill
    have h1' : nelfNext [C, PIPE, 65, PIPE, C] 0 = some ([65], 4) := h1
    rw [nelfDecode_some h1']
    rw [nelfDecode_none (nelfNext_fill_end (i := 4) (by
      intro x hx
      rw [show List.drop 4 [C, PIPE, 65, PIPE, C] = [C] from rfl] at hx
      rw [List.mem_singleton] at hx
      subst hx
      exact hC))]
  · have hg := goodCell_single FWD 65 (by decide) (by decide) (by decide)
    have h1 := nelfNext_goodCell hg [C] [C] hfill
    have h1' : nelfNext [C, FWD, 65, BACK, C] 0 = some ([65], 4) := h1
    rw [nelfDecode_some h1']
    rw [nelfDecode_none (nelfNext_fill_end (i := 4) (by
      intro x hx
      rw [show List.drop 4 [C, FWD, 65, BACK, C] = [C] from rfl] at hx
      rw [List.mem_singleton] at hx
      subst hx
      exact hC))]
  · have hg := goodCell_single BACK 65 (by decide) (by decide) (by decide)
    have h1 := nelfNext_goodCell hg [C] [C] hfill
    have h1' : nelfNext [C, BACK, 65, FWD, C] 0 = some ([65], 4) := h1
    rw [nelfDecode_some h1']
    rw [nelfDecode_none (nelfNext_fill_end (i := 4) (by
      intro x hx
      rw [show List.drop 4 [C, BACK, 65, FWD, C] = [C] from rfl] at hx
      rw [List.mem_singleton] at hx
      subst hx
      exact hC))]

/-- Witness for the amended C8 at `C = 'C'` (byte 67). -/
theorem filler_tolerance_witness :
    nelfDecode [67, PIPE, 65, PIPE, 67] 0 = [[65]] ∧
    nelfDecode [67, FWD, 65, BACK, 67] 0 = [[65]] ∧
    nelfDecode [67, BACK, 65, FWD, 67] 0 = [[65]] :=
  filler_tolerance 67 (by decide)

/-- C3: for every non-empty byte string `s` (of Rust slice size), the run
length used by `encode_one(s)` (the emitted opening/closing run length)
equals exactly 1 plus the length of the longest run of consecutive
occurrences of the chosen scheme's close byte anywhere in `s` (or 1 if the
close byte does not occur): the emitted cell uses `cellN s` copies of the
delimiters, `cellN s = longestRun close s + 1`, every run of the close byte
in `s` is at most `longestRun close s`, and a run of that length actually
occurs. -/
theorem runlength_exact (s : List Nat) (hs : s ≠ [])
    (hlen : s.length + 1 < usizeMax) :
    to_cell s = List.replicate (cellN s) (cellOpen s) ++ s ++
      List.replicate (cellN s) (rch (cellOpen s)) ∧
    cellN s = longestRun (rch (cellOpen s)) s + 1 ∧
    (∀ p k q, s = p ++ List.replicate k (rch (cellOpen s)) ++ q →
      k ≤ longestRun (rch (cellOpen s)) s) ∧
    (∃ p q, s = p ++ List.replicate (longestRun (rch (cellOpen s)) s)
      (rch (cellOpen s)) ++ q) := by
  have h1 := cellN_eq_scanMax_close s hs hlen
  rw [scanMax_eq_longestRun] at h1
  refine ⟨(goodCell_to_cell hs hlen).2.2.1, h1, ?_, ?_⟩
  · intro p k q hpq
    have h := run_le_scanMax (rch (cellOpen s)) p k q
    rw [← hpq, scanMax_eq_longestRun] at h
    exact h
  · have h := scanMax_attained (rch (cellOpen s)) s
    rwa [scanMax_eq_longestRun] at h

/-- Witness for C3 at `s = "B\B"` (the pipe scheme is chosen, whose close
byte `|` does not occur in `s`, so the run length is 1). -/
theorem runlength_exact_witness :
    (([66, 92, 66] : List Nat) ≠ [] ∧
      ([66, 92, 66] : List Nat).length + 1 < usizeMax) ∧
    (to_cell [66, 92, 66] =
      List.replicate (cellN [66, 92, 66]) (cellOpen [66, 92, 66]) ++
        [66, 92, 66] ++
        List.replicate (cellN [66, 92, 66]) (rch (cellOpen [66, 92, 66])) ∧
      cellN [66, 92, 66] =
        longestRun (rch (cellOpen [66, 92, 66])) [66, 92, 66] + 1 ∧
      (∀ p k q, ([66, 92, 66] : List Nat) =
          p ++ List.replicate k (rch (cellOpen [66, 92, 66])) ++ q →
        k ≤ longestRun (rch (cellOpen [66, 92, 66])) [66, 92, 66]) ∧
      (∃ p q, ([66, 92, 66] : List Nat) =
        p ++ List.replicate (longestRun (rch (cellOpen [66, 92, 66]))
          [66, 92, 66]) (rch (cellOpen [66, 92, 66])) ++ q)) :=
  ⟨⟨by decide, by decide⟩, runlength_exact [66, 92, 66] (by decide) (by decide)⟩

/-- Case of the C4 selection proof: all three schemes eligible. -/
theorem scheme_sel_all_eligible (s : List Nat) (hs : s ≠ [])
    (hlen : s.length + 1 < usizeMax)
    (h1 : pipeOk s = true) (h2 : forwardOk s = true) (h3 : backOk s = true) :
    to_cell s = specEncode s := by
  have e1 : (!(s.headD 0 == PIPE || s.getLastD 0 == PIPE)) = pipeOk s := rfl
  have e2 : (!(s.headD 0 == FWD || s.getLastD 0 == BACK)) = forwardOk s := rfl
  have e3 : (!(s.headD 0 == BACK || s.getLastD 0 == FWD)) = backOk s := rfl
  have hltP : longestRun PIPE s + 1 < usizeMax := by
    have h0 := scanMax_eq_longestRun PIPE s
    have hb := scanMax_le_length PIPE s
    omega
  have hltF : longestRun BACK s + 1 < usizeMax := by
    have h0 := scanMax_eq_longestRun BACK s
    have hb := scanMax_le_length BACK s
    omega
  have hltB : longestRun FWD s + 1 < usizeMax := by
    have h0 := scanMax_eq_longestRun FWD s
    have hb := scanMax_le_length FWD s
    omega
  have hpm : pipeMax s = longestRun PIPE s + 1 := by
    rw [pipeMax, if_pos h1, scanMax_eq_longestRun PIPE s]
  have hfm : forwardMax s = longestRun BACK s + 1 := by
    rw [forwardMax, if_pos h2, scanMax_eq_longestRun BACK s]
  have hbm : backMax s = longestRun FWD s + 1 := by
    rw [backMax, if_pos h3, scanMax_eq_longestRun FWD s]
  have hss : specSchemes s = [(PIPE, PIPE), (FWD, BACK), (BACK, FWD)] := by
    simp only [specSchemes, List.filter_cons, List.filter_nil]
    rw [e1, e2, e3]
    simp [h1, h2, h3]
  have q1 := pickMin_single (fun oc => longestRun oc.2 s + 1) (BACK, FWD)
  have q2 := pickMin_cons (fun oc => longestRun oc.2 s + 1) (FWD, BACK) q1
  by_cases hc1 : longestRun FWD s + 1 < longestRun BACK s + 1
  · rw [if_pos hc1] at q2
    have q3 := pickMin_cons (fun oc => longestRun oc.2 s + 1) (PIPE, PIPE) q2
    by_cases hc2 : longestRun FWD s + 1 < longestRun PIPE s + 1
    · rw [if_pos hc2] at q3
      have hq : pickMin (fun oc => longestRun oc.2 s + 1) (specSchemes s) =
          some (BACK, FWD) := by rw [hss]; exact q3
      have hN : cellN s = longestRun FWD s + 1 := by
        rw [cellN, hpm, hfm, hbm]
        omega
      have hnp : ¬ pipeMax s = cellN s := by rw [hpm, hN]; omega
      have hnf : ¬ forwardMax s = cellN s := by rw [hfm, hN]; omega
      have hOpen : cellOpen s = BACK := by
        rw [cellOpen, if_neg hnp, if_neg hnf]
      rw [(goodCell_to_cell hs hlen).2.2.1, specEncode_eq hs hq,
        hOpen, hN, show rch BACK = FWD from rfl]
    · rw [if_neg hc2] at q3
      have hq : pickMin (fun oc => longestRun oc.2 s + 1) (specSchemes s) =
          some (PIPE, PIPE) := by rw [hss]; exact q3
      have hN : cellN s = longestRun PIPE s + 1 := by
        rw [cellN, hpm, hfm, hbm]
        omega
      have hcp : pipeMax s = cellN s := by rw [hpm, hN]
      have hOpen : cellOpen s = PIPE := by rw [cellOpen, if_pos hcp]
      rw [(goodCell_to_cell hs hlen).2.2.1, specEncode_eq hs hq,
        hOpen, hN, show rch PIPE = PIPE from rfl]
  · rw [if_neg hc1] at q2
    have q3 := pickMin_cons (fun oc => longestRun oc.2 s + 1) (PIPE, PIPE) q2
    by_cases hc2 : longestRun BACK s + 1 < longestRun PIPE s + 1
    · rw [if_pos hc2] at q3
      have hq : pickMin (fun oc => longestRun oc.2 s + 1) (specSchemes s) =
          some (FWD, BACK) := by rw [hss]; exact q3
      have hN : cellN s = longestRun BACK s + 1 := by
        rw [cellN, hpm, hfm, hbm]
        omega
      have hnp : ¬ pipeMax s = cellN s := by rw [hpm, hN]; omega
      have hcf : forwardMax s = cellN s := by rw [hfm, hN]
      have hOpen : cellOpen s = FWD := by
        rw [cellOpen, if_neg hnp, if_pos hcf]
      rw [(goodCell_to_cell hs hlen).2.2.1, specEncode_eq hs hq,
        hOpen, hN, show rch FWD = BACK from rfl]
    · rw [if_neg hc2] at q3
      have hq : pickMin (fun oc => longestRun oc.2 s + 1) (specSchemes s) =
          some (PIPE, PIPE) := by rw [hss]; exact q3
      have hN : cellN s = longestRun PIPE s + 1 := by
        rw [cellN, hpm, hfm, hbm]
        omega
      have hcp : pipeMax s = cellN s := by rw [hpm, hN]
      have hOpen : cellOpen s = PIPE := by rw [cellOpen, if_pos hcp]
      rw [(goodCell_to_cell hs hlen).2.2.1, specEncode_eq hs hq,
        hOpen, hN, show rch PIPE = PIPE from rfl]


/-- Case of the C4 selection proof: pipe and forward eligible. -/
theorem scheme_sel_pipe_forward (s : List Nat) (hs : s ≠ [])
    (hlen : s.length + 1 < usizeMax)
    (h1 : pipeOk s = true) (h2 : forwardOk s = true) (h3 : ¬ backOk s = true) :
    to_cell s = specEncode s := by
  have e1 : (!(s.headD 0 == PIPE || s.getLastD 0 == PIPE)) = pipeOk s := rfl
  have e2 : (!(s.headD 0 == FWD || s.getLastD 0 == BACK)) = forwardOk s := rfl
  have e3 : (!(s.headD 0 == BACK || s.getLastD 0 == FWD)) = backOk s := rfl
  have hltP : longestRun PIPE s + 1 < usizeMax := by
    have h0 := scanMax_eq_longestRun PIPE s
    have hb := scanMax_le_length PIPE s
    omega
  have hltF : longestRun BACK s + 1 < usizeMax := by
    have h0 := scanMax_eq_longestRun BACK s
    have hb := scanMax_le_length BACK s
    omega
  have hpm : pipeMax s = longestRun PIPE s + 1 := by
    rw [pipeMax, if_pos h1, scanMax_eq_longestRun PIPE s]
  have hfm : forwardMax s = longestRun BACK s + 1 := by
    rw [forwardMax, if_pos h2, scanMax_eq_longestRun BACK s]
  have hbm : backMax s = usizeMax := by
    rw [backMax, if_neg (by simp [Bool.not_eq_true] at h3; simp [h3])]
  have hss : specSchemes s = [(PIPE, PIPE), (FWD, BACK)] := by
    simp only [specSchemes, List.filter_cons, List.filter_nil]
    rw [e1, e2, e3]
    simp [h1, h2, h3]
  have q1 := pickMin_single (fun oc => longestRun oc.2 s + 1) (FWD, BACK)
  have q2 := pickMin_cons (fun oc => longestRun oc.2 s + 1) (PIPE, PIPE) q1
  by_cases hc1 : longestRun BACK s + 1 < longestRun PIPE s + 1
  · rw [if_pos hc1] at q2
    have hq : pickMin (fun oc => longestRun oc.2 s + 1) (specSchemes s) =
        some (FWD, BACK) := by rw [hss]; exact q2
    have hN : cellN s = longestRun BACK s + 1 := by
      rw [cellN, hpm, hfm, hbm]
      omega
    have hnp : ¬ pipeMax s = cellN s := by rw [hpm, hN]; omega
    have hcf : forwardMax s = cellN s := by rw [hfm, hN]
    have hOpen : cellOpen s = FWD := by
      rw [cellOpen, if_neg hnp, if_pos hcf]
    rw [(goodCell_to_cell hs hlen).2.2.1, specEncode_eq hs hq,
      hOpen, hN, show rch FWD = BACK from rfl]
  · rw [if_neg hc1] at q2
    have hq : pickMin (fun oc => longestRun oc.2 s + 1) (specSchemes s) =
        some (PIPE, PIPE) := by rw [hss]; exact q2
    have hN : cellN s = longestRun PIPE s + 1 := by
      rw [cellN, hpm, hfm, hbm]
      omega
    have hcp : pipeMax s = cellN s := by rw [hpm, hN]
    have hOpen : cellOpen s = PIPE := by rw [cellOpen, if_pos hcp]
    rw [(goodCell_to_cell hs hlen).2.2.1, specEncode_eq hs hq,
      hOpen, hN, show rch PIPE = PIPE from rfl]


/-- Case of the C4 selection proof: pipe and back eligible. -/
theorem scheme_sel_pipe_back (s : List Nat) (hs : s ≠ [])
    (hlen : s.length + 1 < usizeMax)
    (h1 : pipeOk s = true) (h2 : ¬ forwardOk s = true) (h3 : backOk s = true) :
    to_cell s = specEncode s := by
  have e1 : (!(s.headD 0 == PIPE || s.getLastD 0 == PIPE)) = pipeOk s := rfl
  have e2 : (!(s.headD 0 == FWD || s.getLastD 0 == BACK)) = forwardOk s := rfl
  have e3 : (!(s.headD 0 == BACK || s.getLastD 0 == FWD)) = backOk s := rfl
  have hltP : longestRun PIPE s + 1 < usizeMax := by
    have h0 := scanMax_eq_longestRun PIPE s
    have hb := scanMax_le_length PIPE s
    omega
  have hltB : longestRun FWD s + 1 < usizeMax := by
    have h0 := scanMax_eq_longestRun FWD s
    have hb := scanMax_le_length FWD s
    omega
  have hpm : pipeMax s = longestRun PIPE s + 1 := by
    rw [pipeMax, if_pos h1, scanMax_eq_longestRun PIPE s]
  have hfm : forwardMax s = usizeMax := by
    rw [forwardMax, if_neg (by simp [Bool.not_eq_true] at h2; simp [h2])]
  have hbm : backMax s = longestRun FWD s + 1 := by
    rw [backMax, if_pos h3, scanMax_eq_longestRun FWD s]
  have hss : specSchemes s = [(PIPE, PIPE), (BACK, FWD)] := by
    simp only [specSchemes, List.filter_cons, List.filter_nil]
    rw [e1, e2, e3]
    simp [h1, h2, h3]
  have q1 := pickMin_single (fun oc => longestRun oc.2 s + 1) (BACK, FWD)
  have q2 := pickMin_cons (fun oc => longestRun oc.2 s + 1) (PIPE, PIPE) q1
  by_cases hc1 : longestRun FWD s + 1 < longestRun PIPE s + 1
  · rw [if_pos hc1] at q2
    have hq : pickMin (fun oc => longestRun oc.2 s + 1) (specSchemes s) =
        some (BACK, FWD) := by rw [hss]; exact q2
    have hN : cellN s = longestRun FWD s + 1 := by
      rw [cellN, hpm, hfm, hbm]
      omega
    have hnp : ¬ pipeMax s = cellN s := by rw [hpm, hN]; omega
    have hnf : ¬ forwardMax s = cellN s := by rw [hfm, hN]; omega
    have hOpen : cellOpen s = BACK := by
      rw [cellOpen, if_neg hnp, if_neg hnf]
    rw [(goodCell_to_cell hs hlen).2.2.1, specEncode_eq hs hq,
      hOpen, hN, show rch BACK = FWD from rfl]
  · rw [if_neg hc1] at q2
    have hq : pickMin (fun oc => longestRun oc.2 s + 1) (specSchemes s) =
        some (PIPE, PIPE) := by rw [hss]; exact q2
    have hN : cellN s = longestRun PIPE s + 1 := by
      rw [cellN, hpm, hfm, hbm]
      omega
    have hcp : pipeMax s = cellN s := by rw [hpm, hN]
    have hOpen : cellOpen s = PIPE := by rw [cellOpen, if_pos hcp]
    rw [(goodCell_to_cell hs hlen).2.2.1, specEncode_eq hs hq,
      hOpen, hN, show rch PIPE = PIPE from rfl]


/-- Case of the C4 selection proof: only the pipe scheme eligible. -/
theorem scheme_sel_pipe_only (s : List Nat) (hs : s ≠ [])
    (hlen : s.length + 1 < usizeMax)
    (h1 : pipeOk s = true) (h2 : ¬ forwardOk s = true) (h3 : ¬ backOk s = true) :
    to_cell s = specEncode s := by
  have e1 : (!(s.headD 0 == PIPE || s.getLastD 0 == PIPE)) = pipeOk s := rfl
  have e2 : (!(s.headD 0 == FWD || s.getLastD 0 == BACK)) = forwardOk s := rfl
  have e3 : (!(s.headD 0 == BACK || s.getLastD 0 == FWD)) = backOk s := rfl
  have hltP : longestRun PIPE s + 1 < usizeMax := by
    have h0 := scanMax_eq_longestRun PIPE s
    have hb := scanMax_le_length PIPE s
    omega
  have hpm : pipeMax s = longestRun PIPE s + 1 := by
    rw [pipeMax, if_pos h1, scanMax_eq_longestRun PIPE s]
  have hfm : forwardMax s = usizeMax := by
    rw [forwardMax, if_neg (by simp [Bool.not_eq_true] at h2; simp [h2])]
  have hbm : backMax s = usizeMax := by
    rw [backMax, if_neg (by simp [Bool.not_eq_true] at h3; simp [h3])]
  have hss : specSchemes s = [(PIPE, PIPE)] := by
    simp only [specSchemes, List.filter_cons, List.filter_nil]
    rw [e1, e2, e3]
    simp [h1, h2, h3]
  have hq : pickMin (fun oc => longestRun oc.2 s + 1) (specSchemes s) =
      some (PIPE, PIPE) := by
    rw [hss]
    exact pickMin_single (fun oc => longestRun oc.2 s + 1) (PIPE, PIPE)
  have hN : cellN s = longestRun PIPE s + 1 := by
    rw [cellN, hpm, hfm, hbm]
    omega
  have hcp : pipeMax s = cellN s := by rw [hpm, hN]
  have hOpen : cellOpen s = PIPE := by rw [cellOpen, if_pos hcp]
  rw [(goodCell_to_cell hs hlen).2.2.1, specEncode_eq hs hq,
    hOpen, hN, show rch PIPE = PIPE from rfl]


/-- Case of the C4 selection proof: forward and back eligible. -/
theorem scheme_sel_forward_back (s : List Nat) (hs : s ≠ [])
    (hlen : s.length + 1 < usizeMax)
    (h1 : ¬ pipeOk s = true) (h2 : forwardOk s = true) (h3 : backOk s = true) :
    to_cell s = specEncode s := by
  have e1 : (!(s.headD 0 == PIPE || s.getLastD 0 == PIPE)) = pipeOk s := rfl
  have e2 : (!(s.headD 0 == FWD || s.getLastD 0 == BACK)) = forwardOk s := rfl
  have e3 : (!(s.headD 0 == BACK || s.getLastD 0 == FWD)) = backOk s := rfl
  have hltF : longestRun BACK s + 1 < usizeMax := by
    have h0 := scanMax_eq_longestRun BACK s
    have hb := scanMax_le_length BACK s
    omega
  have hltB : longestRun FWD s + 1 < usizeMax := by
    have h0 := scanMax_eq_longestRun FWD s
    have hb := scanMax_le_length FWD s
    omega
  have hpm : pipeMax s = usizeMax := by
    rw [pipeMax, if_neg (by simp [Bool.not_eq_true] at h1; simp [h1])]
  have hfm : forwardMax s = longestRun BACK s + 1 := by
    rw [forwardMax, if_pos h2, scanMax_eq_longestRun BACK s]
  have hbm : backMax s = longestRun FWD s + 1 := by
    rw [backMax, if_pos h3, scanMax_eq_longestRun FWD s]
  have hss : specSchemes s = [(FWD, BACK), (BACK, FWD)] := by
    simp only [specSchemes, List.filter_cons, List.filter_nil]
    rw [e1, e2, e3]
    simp [h1, h2, h3]
  have q1 := pickMin_single (fun oc => longestRun oc.2 s + 1) (BACK, FWD)
  have q2 := pickMin_cons (fun oc => longestRun oc.2 s + 1) (FWD, BACK) q1
  by_cases hc1 : longestRun FWD s + 1 < longestRun BACK s + 1
  · rw [if_pos hc1] at q2
    have hq : pickMin (fun oc => longestRun oc.2 s + 1) (specSchemes s) =
        some (BACK, FWD) := by rw [hss]; exact q2
    have hN : cellN s = longestRun FWD s + 1 := by
      rw [cellN, hpm, hfm, hbm]
      omega
    have hnp : ¬ pipeMax s = cellN s := by rw [hpm, hN]; omega
    have hnf : ¬ forwardMax s = cellN s := by rw [hfm, hN]; omega
    have hOpen : cellOpen s = BACK := by
      rw [cellOpen, if_neg hnp, if_neg hnf]
    rw [(goodCell_to_cell hs hlen).2.2.1, specEncode_eq hs hq,
      hOpen, hN, show rch BACK = FWD from rfl]
  · rw [if_neg hc1] at q2
    have hq : pickMin (fun oc => longestRun oc.2 s + 1) (specSchemes s) =
        some (FWD, BACK) := by rw [hss]; exact q2
    have hN : cellN s = longestRun BACK s + 1 := by
      rw [cellN, hpm, hfm, hbm]
      omega
    have hnp : ¬ pipeMax s = cellN s := by rw [hpm, hN]; omega
    have hcf : forwardMax s = cellN s := by rw [hfm, hN]
    have hOpen : cellOpen s = FWD := by
      rw [cellOpen, if_neg hnp, if_pos hcf]
    rw [(goodCell_to_cell hs hlen).2.2.1, specEncode_eq hs hq,
      hOpen, hN, show rch FWD = BACK from rfl]


/-- Case of the C4 selection proof: only the forward scheme eligible. -/
theorem scheme_sel_forward_only (s : List Nat) (hs : s ≠ [])
    (hlen : s.length + 1 < usizeMax)
    (h1 : ¬ pipeOk s = true) (h2 : forwardOk s = true) (h3 : ¬ backOk s = true) :
    to_cell s = specEncode s := by
  have e1 : (!(s.headD 0 == PIPE || s.getLastD 0 == PIPE)) = pipeOk s := rfl
  have e2 : (!(s.headD 0 == FWD || s.getLastD 0 == BACK)) = forwardOk s := rfl
  have e3 : (!(s.headD 0 == BACK || s.getLastD 0 == FWD)) = backOk s := rfl
  have hltF : longestRun BACK s + 1 < usizeMax := by
    have h0 := scanMax_eq_longestRun BACK s
    have hb := scanMax_le_length BACK s
    omega
  have hpm : pipeMax s = usizeMax := by
    rw [pipeMax, if_neg (by simp [Bool.not_eq_true] at h1; simp [h1])]
  have hfm : forwardMax s = longestRun BACK s + 1 := by
    rw [forwardMax, if_pos h2, scanMax_eq_longestRun BACK s]
  have hbm : backMax s = usizeMax := by
    rw [backMax, if_neg (by simp [Bool.not_eq_true] at h3; simp [h3])]
  have hss : specSchemes s = [(FWD, BACK)] := by
    simp only [specSchemes, List.filter_cons, List.filter_nil]
    rw [e1, e2, e3]
    simp [h1, h2, h3]
  have hq : pickMin (fun oc => longestRun oc.2 s + 1) (specSchemes s) =
      some (FWD, BACK) := by
    rw [hss]
    exact pickMin_single (fun oc => longestRun oc.2 s + 1) (FWD, BACK)
  have hN : cellN s = longestRun BACK s + 1 := by
    rw [cellN, hpm, hfm, hbm]
    omega
  have hnp : ¬ pipeMax s = cellN s := by rw [hpm, hN]; omega
  have hcf : forwardMax s = cellN s := by rw [hfm, hN]
  have hOpen : cellOpen s = FWD := by
    rw [cellOpen, if_neg hnp, if_pos hcf]
  rw [(goodCell_to_cell hs hlen).2.2.1, specEncode_eq hs hq,
    hOpen, hN, show rch FWD = BACK from rfl]


/-- Case of the C4 selection proof: only the back scheme eligible. -/
theorem scheme_sel_back_only (s : List Nat) (hs : s ≠ [])
    (hlen : s.length + 1 < usizeMax)
    (h1 : ¬ pipeOk s = true) (h2 : ¬ forwardOk s = true) (h3 : backOk s = true) :
    to_cell s = specEncode s := by
  have e1 : (!(s.headD 0 == PIPE || s.getLastD 0 == PIPE)) = pipeOk s := rfl
  have e2 : (!(s.headD 0 == FWD || s.getLastD 0 == BACK)) = forwardOk s := rfl
  have e3 : (!(s.headD 0 == BACK || s.getLastD 0 == FWD)) = backOk s := rfl
  have hltB : longestRun FWD s + 1 < usizeMax := by
    have h0 := scanMax_eq_longestRun FWD s
    have hb := scanMax_le_length FWD s
    omega
  have hpm : pipeMax s = usizeMax := by
    rw [pipeMax, if_neg (by simp [Bool.not_eq_true] at h1; simp [h1])]
  have hfm : forwardMax s = usizeMax := by
    rw [forwardMax, if_neg (by simp [Bool.not_eq_true] at h2; simp [h2])]
  have hbm : backMax s = longestRun FWD s + 1 := by
    rw [backMax, if_pos h3, scanMax_eq_longestRun FWD s]
  have hss : specSchemes s = [(BACK, FWD)] := by
    simp only [specSchemes, List.filter_cons, List.filter_nil]
    rw [e1, e2, e3]
    simp [h1, h2, h3]
  have hq : pickMin (fun oc => longestRun oc.2 s + 1) (specSchemes s) =
      some (BACK, FWD) := by
    rw [hss]
    exact pickMin_single (fun oc => longestRun oc.2 s + 1) (BACK, FWD)
  have hN : cellN s = longestRun FWD s + 1 := by
    rw [cellN, hpm, hfm, hbm]
    omega
  have hnp : ¬ pipeMax s = cellN s := by rw [hpm, hN]; omega
  have hnf : ¬ forwardMax s = cellN s := by rw [hfm, hN]; omega
  have hOpen : cellOpen s = BACK := by
    rw [cellOpen, if_neg hnp, if_neg hnf]
  rw [(goodCell_to_cell hs hlen).2.2.1, specEncode_eq hs hq,
    hOpen, hN, show rch BACK = FWD from rfl]


/-- C4: for every non-empty byte string `s` (of Rust slice size), the
encoder realises exactly the spec's selection rule: a scheme `(O, C)` is
ineligible iff the first byte equals `O` or the last byte equals `C`;
among the eligible schemes the one with the smallest required run length is
chosen, ties broken by the preference order `PIPE, FWD, BACK`; hence the
exact encoded bytes coincide with the spec-modelled `specEncode`. -/
theorem scheme_selection (s : List Nat) (hs : s ≠ [])
    (hlen : s.length + 1 < usizeMax) : to_cell s = specEncode s := by
  by_cases h1 : pipeOk s = true
  · by_cases h2 : forwardOk s = true
    · by_cases h3 : backOk s = true
      · exact scheme_sel_all_eligible s hs hlen h1 h2 h3
      · exact scheme_sel_pipe_forward s hs hlen h1 h2 h3
    · by_cases h3 : backOk s = true
      · exact scheme_sel_pipe_back s hs hlen h1 h2 h3
      · exact scheme_sel_pipe_only s hs hlen h1 h2 h3
  · by_cases h2 : forwardOk s = true
    · by_cases h3 : backOk s = true
      · exact scheme_sel_forward_back s hs hlen h1 h2 h3
      · exact scheme_sel_forward_only s hs hlen h1 h2 h3
    · by_cases h3 : backOk s = true
      · exact scheme_sel_back_only s hs hlen h1 h2 h3
      · rcases eligible_disjunction s with h | h | h
        · exact absurd h h1
        · exact absurd h h2
        · exact absurd h h3

/-- Witness for C4 at `s = "A"`. -/
theorem scheme_selection_witness :
    (([65] : List Nat) ≠ [] ∧ ([65] : List Nat).length + 1 < usizeMax) ∧
    to_cell [65] = specEncode [65] :=
  ⟨⟨by decide, by decide⟩, scheme_selection [65] (by decide) (by decide)⟩

end Nelf
